import Mathlib

/-!
Verification of the Hebrew-collation module `ivsort.py`.

Characters are modelled as Unicode code points (`Nat`), strings as
`List Nat`.  The Unicode data (canonical combining classes and canonical
decompositions) is embedded for the Hebrew block U+0591 - U+05C7 and the
Hebrew presentation forms U+FB1D - U+FB4E; every other code point is
treated as a primitive with combining class 0, which is faithful for all
characters the tables of the program can recognise.
-/

namespace Ivsort

/-- The consonant enumeration string of `ivsort.py` line 40,
`' אבגדהוזחטיךכלםמןנסעףפץצקרשׂשת'`, as a list of code points.  Note that
the source string contains the precomposed letter U+FB2B (Shin with Sin
dot) between Resh (U+05E8) and Shin (U+05E9). -/
def consString : List Nat :=
  [0x20, 0x5D0, 0x5D1, 0x5D2, 0x5D3, 0x5D4, 0x5D5, 0x5D6, 0x5D7, 0x5D8,
   0x5D9, 0x5DA, 0x5DB, 0x5DC, 0x5DD, 0x5DE, 0x5DF, 0x5E0, 0x5E1, 0x5E2,
   0x5E3, 0x5E4, 0x5E5, 0x5E6, 0x5E7, 0x5E8, 0xFB2B, 0x5E9, 0x5EA]

/-- `CONS = {c: i for i, c in enumerate(...)}` together with the extra
entry `CONS['־'] = CONS[' ']` (line 41): association list from code point
to consonant rank. -/
def consPairs : List (Nat × Nat) :=
  consString.enum.map (fun p => (p.2, p.1)) ++ [(0x5BE, 0)]

/-- `VOWELORDER` (line 42): the vowel characters in rank order after the
placeholder Mem characters are removed.  It contains U+05B9 and U+05BA
and the precomposed units U+FB4B (Holem-Vav) and U+FB35 (Shureq); the
dagesh U+05BC is NOT in this list. -/
def VOWELORDER : List Nat :=
  [0x5B0, 0x5B1, 0x5B2, 0x5B3, 0x5B4, 0x5B5, 0x5B6, 0x5B7, 0x5B8, 0x5B9,
   0x5BA, 0xFB4B, 0x5BB, 0xFB35]

/-- The vowel part of `ORDER2` (line 44): each vowel maps to `100 + i`. -/
def vowelPairs : List (Nat × Nat) :=
  VOWELORDER.enum.map (fun p => (p.2, 100 + p.1))

/-- First-match association-list lookup, the model of Python dict lookup
for the dictionaries of the program (their keys are unique). -/
def alookup {β : Type} : List (Nat × β) → Nat → Option β
  | [], _ => none
  | (k, v) :: t, c => if c = k then some v else alookup t c

/-- Lookup in the consonant table `CONS`. -/
def CONS (c : Nat) : Option Nat := alookup consPairs c

/-- Lookup in `ORDER2 = CONS.copy(); ORDER2.update(vowels)` (lines 43-44).
The key sets of the two tables are disjoint, so the dict union is
first-match lookup in the concatenation. -/
def ORDER2 (c : Nat) : Option Nat := alookup (consPairs ++ vowelPairs) c

/-- Membership in `VOWELS = set(VOWELORDER)` (line 45). -/
def isVowel (c : Nat) : Bool := VOWELORDER.contains c

/-- Membership in `VOWDAGESH = VOWELS | {'ּ'}` (lines 46-47). -/
def isVowDag (c : Nat) : Bool := isVowel c || c = 0x5BC

/-- Membership in `RELEVANTCHARS = VOWDAGESH | set(CONS) | {'ׂ',
'ׁ'}` (lines 48-49). -/
def isRelevant (c : Nat) : Bool :=
  isVowDag c || (CONS c).isSome || c = 0x5C2 || c = 0x5C1

/-- Canonical combining classes of the Hebrew block (Unicode data for
U+0591 - U+05C7); all other code points are treated as class 0. -/
def cccPairs : List (Nat × Nat) :=
  [(0x591, 220), (0x592, 230), (0x593, 230), (0x594, 230), (0x595, 230),
   (0x596, 220), (0x597, 230), (0x598, 230), (0x599, 230), (0x59A, 222),
   (0x59B, 220), (0x59C, 230), (0x59D, 230), (0x59E, 230), (0x59F, 230),
   (0x5A0, 230), (0x5A1, 230), (0x5A2, 220), (0x5A3, 220), (0x5A4, 220),
   (0x5A5, 220), (0x5A6, 220), (0x5A7, 220), (0x5A8, 230), (0x5A9, 230),
   (0x5AA, 220), (0x5AB, 230), (0x5AC, 230), (0x5AD, 222), (0x5AE, 228),
   (0x5AF, 230), (0x5B0, 10), (0x5B1, 11), (0x5B2, 12), (0x5B3, 13),
   (0x5B4, 14), (0x5B5, 15), (0x5B6, 16), (0x5B7, 17), (0x5B8, 18),
   (0x5B9, 19), (0x5BA, 19), (0x5BB, 20), (0x5BC, 21), (0x5BD, 22),
   (0x5BF, 23), (0x5C1, 24), (0x5C2, 25), (0x5C4, 230), (0x5C5, 220),
   (0x5C7, 18)]

/-- Canonical combining class of a code point. -/
def ccc (c : Nat) : Nat := (alookup cccPairs c).getD 0

/-- Full canonical decompositions of the Hebrew presentation forms
U+FB1D - U+FB4E (Unicode data; U+FB2C and U+FB2D are expanded through
U+FB49).  These are the only code points whose canonical decomposition
contains characters recognised by the program's tables. -/
def decompPairs : List (Nat × List Nat) :=
  [(0xFB1D, [0x5D9, 0x5B4]), (0xFB1F, [0x5F2, 0x5B7]),
   (0xFB2A, [0x5E9, 0x5C1]), (0xFB2B, [0x5E9, 0x5C2]),
   (0xFB2C, [0x5E9, 0x5BC, 0x5C1]), (0xFB2D, [0x5E9, 0x5BC, 0x5C2]),
   (0xFB2E, [0x5D0, 0x5B7]), (0xFB2F, [0x5D0, 0x5B8]),
   (0xFB30, [0x5D0, 0x5BC]), (0xFB31, [0x5D1, 0x5BC]),
   (0xFB32, [0x5D2, 0x5BC]), (0xFB33, [0x5D3, 0x5BC]),
   (0xFB34, [0x5D4, 0x5BC]), (0xFB35, [0x5D5, 0x5BC]),
   (0xFB36, [0x5D6, 0x5BC]), (0xFB38, [0x5D8, 0x5BC]),
   (0xFB39, [0x5D9, 0x5BC]), (0xFB3A, [0x5DA, 0x5BC]),
   (0xFB3B, [0x5DB, 0x5BC]), (0xFB3C, [0x5DC, 0x5BC]),
   (0xFB3E, [0x5DE, 0x5BC]), (0xFB40, [0x5E0, 0x5BC]),
   (0xFB41, [0x5E1, 0x5BC]), (0xFB43, [0x5E3, 0x5BC]),
   (0xFB44, [0x5E4, 0x5BC]), (0xFB46, [0x5E6, 0x5BC]),
   (0xFB47, [0x5E7, 0x5BC]), (0xFB48, [0x5E8, 0x5BC]),
   (0xFB49, [0x5E9, 0x5BC]), (0xFB4A, [0x5EA, 0x5BC]),
   (0xFB4B, [0x5D5, 0x5B9]), (0xFB4C, [0x5D1, 0x5BF]),
   (0xFB4D, [0x5DB, 0x5BF]), (0xFB4E, [0x5E4, 0x5BF])]

/-- Canonical decomposition of a single code point. -/
def decomp (c : Nat) : List Nat := (alookup decompPairs c).getD [c]

/-- Insert one character into an already canonically-ordered list:
a character of non-zero combining class moves left over characters of
strictly larger non-zero class is wrong order; this is the stable
insertion step of the Unicode canonical ordering algorithm. -/
def insm (c : Nat) : List Nat → List Nat
  | [] => [c]
  | d :: ds => if 0 < ccc d ∧ ccc d < ccc c then d :: insm c ds else c :: d :: ds

/-- Unicode canonical ordering: stable sort of every maximal run of
characters with non-zero combining class, by combining class. -/
def canon (w : List Nat) : List Nat := w.foldr insm []

/-- `unicodedata.normalize('NFD', word)` (line 74), restricted as
described in the module docstring: decompose every character, then apply
canonical ordering. -/
def nfd (w : List Nat) : List Nat := canon (w.flatMap decomp)

/-- `MATCHSIN.sub(u'שׂ\1', word)` (lines 51 and 76).  The pattern is
`ש([VOWDAGESH]{0,2})ׂ`; the replacement string parses in Python to
U+FB2B followed by the control character U+0001 (the `\1` in the
non-raw literal is an octal escape, not a backreference), so the matched
intervening marks are not re-emitted. -/
def msubF : Nat → List Nat → List Nat
  | _, [] => []
  | 0, w => w
  | fuel + 1, c :: rest =>
    if c = 0x5E9 then
      match rest with
      | m1 :: m2 :: d :: r =>
        if isVowDag m1 && isVowDag m2 && d = 0x5C2 then
          0xFB2B :: 0x1 :: msubF fuel r
        else if isVowDag m1 && m2 = 0x5C2 then
          0xFB2B :: 0x1 :: msubF fuel (d :: r)
        else if m1 = 0x5C2 then 0xFB2B :: 0x1 :: msubF fuel (m2 :: d :: r)
        else c :: msubF fuel (m1 :: m2 :: d :: r)
      | [m1, m2] =>
        if isVowDag m1 && m2 = 0x5C2 then [0xFB2B, 0x1]
        else if m1 = 0x5C2 then 0xFB2B :: 0x1 :: msubF fuel [m2]
        else c :: msubF fuel [m1, m2]
      | [m1] =>
        if m1 = 0x5C2 then [0xFB2B, 0x1]
        else c :: msubF fuel [m1]
      | [] => [c]
    else c :: msubF fuel rest

/-- Entry point for the Sin substitution: every recursive step of
`msubF` consumes at least one character, so fuel `w.length` is always
enough and the fuel-exhausted branch is unreachable. -/
def msub (w : List Nat) : List Nat := msubF w.length w

/-- Index of the first occurrence of the two-character pattern
`[p1, p2]`, the model of Python `str.find` for the patterns of
`TRICKYVAVS` (all of length 2). -/
def firstMatch (p1 p2 : Nat) : List Nat → Option Nat
  | [] => none
  | [_] => none
  | a :: b :: t =>
    if a = p1 ∧ b = p2 then some 0
    else (firstMatch p1 p2 (b :: t)).map (· + 1)

/-- `word[start:].find(nfd)` shifted back to an absolute index:
the source computes `check = word[start:].find(nfd); i = check + start`. -/
def findFrom (p1 p2 : Nat) (w : List Nat) (start : Nat) : Option Nat :=
  (firstMatch p1 p2 (w.drop start)).map (· + start)

/-- `word.replace(nfd, nfc, 1)` (line 91) for a two-character pattern and
a one-character replacement: replace the first occurrence only. -/
def replaceFirst2 (p1 p2 r : Nat) : List Nat → List Nat
  | [] => []
  | [a] => [a]
  | a :: b :: t =>
    if a = p1 ∧ b = p2 then r :: t
    else a :: replaceFirst2 p1 p2 r (b :: t)

/-- Normalise one Python slice endpoint for `w`: negative indices count
from the end, then the result is clamped into `[0, len w]`. -/
def pySliceLo (w : List Nat) (x : Int) : Int :=
  max 0 (min (w.length : Int) (if x < 0 then x + w.length else x))

/-- Python slice `w[a:b]` (step 1) with full negative-index and clamping
semantics, used for `word[i+2:i+1]` and `word[i-1:i]` on line 90. -/
def pySlice (w : List Nat) (a b : Int) : List Nat :=
  ((w.drop (pySliceLo w a).toNat).take ((pySliceLo w b).toNat - (pySliceLo w a).toNat))

/-- Python `s in VOWELS` where `VOWELS` is a set of one-character
strings: true exactly when `s` is one character long and that character
is a vowel. -/
def strInVowels (s : List Nat) : Bool :=
  match s with
  | [x] => isVowel x
  | _ => false

/-- Python `s in VOWDAGESH` for a string `s`, as for `strInVowels`. -/
def strInVowDag (s : List Nat) : Bool :=
  match s with
  | [x] => isVowDag x
  | _ => false

/-- One run of the `while check != -1` loop of `trickyvav_replacer`
(lines 87-94), fuelled.  Each iteration finds the next occurrence of the
pattern at or after `start`; unless the guard of line 90 holds
(`word[i+2:i+1] in VOWDAGESH or word[i-1:i] in VOWELS` - the first slice
is always empty) it replaces the FIRST occurrence in the whole word,
then continues searching from `i + 1`.  `none` means the fuel ran out. -/
def tvLoopF (fuel : Nat) (p1 p2 r : Nat) (w : List Nat) (start : Nat) :
    Option (List Nat) :=
  match findFrom p1 p2 w start with
  | none => some w
  | some i =>
    match fuel with
    | 0 => none
    | fuel' + 1 =>
      tvLoopF fuel' p1 p2 r
        (if !(strInVowDag (pySlice w ((i : Int) + 2) ((i : Int) + 1)) ||
              strInVowels (pySlice w ((i : Int) - 1) (i : Int)))
         then replaceFirst2 p1 p2 r w else w)
        (i + 1)

/-- `trickyvav_replacer(word, nfd, nfc)` (lines 82-95).  The fuel
`length + 1` always suffices (proved below), so the default branch is
never taken. -/
def trickyvav_replacer (w : List Nat) (p1 p2 r : Nat) : List Nat :=
  (tvLoopF (w.length + 1) p1 p2 r w 0).getD w

/-- `substitutions(word)` (lines 69-79): NFD-normalise, filter to the
relevant characters, apply the Sin substitution, then the three
tricky-vav replacements in the order of `TRICKYVAVS` (line 50). -/
def substitutions (w : List Nat) : List Nat :=
  trickyvav_replacer
    (trickyvav_replacer
      (trickyvav_replacer (msub ((nfd w).filter isRelevant))
        0x5B9 0x5D5 0xFB4B)
      0x5D5 0x5B9 0xFB4B)
    0x5D5 0x5BC 0xFB35

/-- The consonant key of a normalised word: the loop of `sortkey`
appends `CONS[char]` for every character present in `CONS`. -/
def key1Of (u : List Nat) : List Nat := u.filterMap CONS

/-- The combined key of a normalised word: the loop of `sortkey`
appends `ORDER2[char]` for every character present in `ORDER2`. -/
def key2Of (u : List Nat) : List Nat := u.filterMap ORDER2

/-- `sortkey(word)` (lines 54-66). -/
def sortkey (w : List Nat) : List Nat × List Nat :=
  (key1Of (substitutions w), key2Of (substitutions w))

/-- Lexicographic three-way comparison of integer lists, the model of
Python list comparison. -/
def lcmp : List Nat → List Nat → Ordering
  | [], [] => .eq
  | [], _ :: _ => .lt
  | _ :: _, [] => .gt
  | a :: as, b :: bs =>
    if a < b then .lt else if b < a then .gt else lcmp as bs

/-- Comparison of the `(key1, key2)` pairs, the model of Python tuple
comparison. -/
def kcmp (x y : List Nat × List Nat) : Ordering :=
  match lcmp x.1 y.1 with
  | .eq => lcmp x.2 y.2
  | o => o

/-- The at-most ordering on words induced by `sortkey`; Python `sorted`
with `key=sortkey` produces the unique stable ordering under this
relation. -/
def keyLE (w1 w2 : List Nat) : Bool :=
  match kcmp (sortkey w1) (sortkey w2) with
  | .gt => false
  | _ => true

/-- `ivsort(wordlist) = sorted(wordlist, key=sortkey)` (lines 98-100):
a stable sort by `sortkey`, modelled by the stable `List.mergeSort`. -/
def ivsort (l : List (List Nat)) : List (List Nat) := l.mergeSort keyLE

/-- The Hebrew letters, the space and the maqaf: the relevant characters
with combining class 0 and no canonical decomposition. -/
def hebLetters : List Nat :=
  [0x20, 0x5BE, 0x5D0, 0x5D1, 0x5D2, 0x5D3, 0x5D4, 0x5D5, 0x5D6, 0x5D7,
   0x5D8, 0x5D9, 0x5DA, 0x5DB, 0x5DC, 0x5DD, 0x5DE, 0x5DF, 0x5E0, 0x5E1,
   0x5E2, 0x5E3, 0x5E4, 0x5E5, 0x5E6, 0x5E7, 0x5E8, 0x5E9, 0x5EA]

theorem alookup_append_some {β : Type} {l1 l2 : List (Nat × β)} {c : Nat}
    {v : β} (h : alookup l1 c = some v) : alookup (l1 ++ l2) c = some v := by
  induction l1 with
  | nil => simp [alookup] at h
  | cons p t ih =>
    obtain ⟨k, x⟩ := p
    by_cases hc : c = k
    · simpa [alookup, hc] using (by simpa [alookup, hc] using h)
    · simp only [alookup, List.cons_append, if_neg hc] at h ⊢
      exact ih h

theorem alookup_append_none {β : Type} {l1 l2 : List (Nat × β)} {c : Nat}
    (h : alookup l1 c = none) : alookup (l1 ++ l2) c = alookup l2 c := by
  induction l1 with
  | nil => simp [alookup]
  | cons p t ih =>
    obtain ⟨k, x⟩ := p
    by_cases hc : c = k
    · simp [alookup, hc] at h
    · simp only [alookup, List.cons_append, if_neg hc] at h ⊢
      exact ih h

theorem alookup_mem {β : Type} : ∀ {l : List (Nat × β)} {c : Nat} {v : β},
    alookup l c = some v → (c, v) ∈ l
  | [], _, _, h => by simp [alookup] at h
  | (k, x) :: t, c, v, h => by
    by_cases hc : c = k
    · simp only [alookup, if_pos hc] at h
      obtain rfl : x = v := Option.some.inj h
      simp [hc]
    · simp only [alookup, if_neg hc] at h
      exact List.mem_cons_of_mem _ (alookup_mem h)

theorem cons_rank_lt_100 {c v : Nat} (h : CONS c = some v) : v < 100 := by
  have hm : (c, v) ∈ consPairs := alookup_mem h
  have hall : ∀ p ∈ consPairs, p.2 < 100 := by decide
  exact hall _ hm

theorem vowel_rank_ge_100 {c v : Nat} (h : alookup vowelPairs c = some v) :
    100 ≤ v := by
  have hm : (c, v) ∈ vowelPairs := alookup_mem h
  have hall : ∀ p ∈ vowelPairs, 100 ≤ p.2 := by decide
  exact hall _ hm

theorem order2_of_cons {c v : Nat} (h : CONS c = some v) :
    ORDER2 c = some v := alookup_append_some h

theorem order2_of_not_cons {c : Nat} (h : CONS c = none) :
    ORDER2 c = alookup vowelPairs c := alookup_append_none h

theorem key1Of_eq_filter_key2Of (u : List Nat) :
    key1Of u = (key2Of u).filter (fun r => decide (r < 100)) := by
  induction u with
  | nil => rfl
  | cons c t ih =>
    cases h : CONS c with
    | some v =>
      have hv : decide (v < 100) = true := by
        simpa using cons_rank_lt_100 h
      rw [key1Of, List.filterMap_cons_some h,
        key2Of, List.filterMap_cons_some (order2_of_cons h),
        List.filter_cons, hv]
      exact congrArg (v :: ·) ih
    | none =>
      rw [key1Of, List.filterMap_cons_none h, key2Of]
      cases h2 : ORDER2 c with
      | none => rw [List.filterMap_cons_none h2]; exact ih
      | some v =>
        have hv : 100 ≤ v := by
          rw [order2_of_not_cons h] at h2
          exact vowel_rank_ge_100 h2
        have hv2 : decide (v < 100) = false := by
          simp only [decide_eq_false_iff_not]
          omega
        rw [List.filterMap_cons_some h2, List.filter_cons, hv2]
        exact ih

/-- C4 amended.  The combined table `ORDER2` has no entry for the dagesh
U+05BC at all, so a dagesh that survives normalization contributes to
neither key1 nor key2: the key-building scan of `sortkey` ignores it
wherever it occurs in the normalized word. -/
theorem C4_amended :
    ORDER2 0x5BC = none ∧
    ∀ a b : List Nat,
      key1Of (a ++ 0x5BC :: b) = key1Of (a ++ b) ∧
      key2Of (a ++ 0x5BC :: b) = key2Of (a ++ b) := by
  refine ⟨by decide, fun a b => ⟨?_, ?_⟩⟩
  · have h : CONS 0x5BC = none := by decide
    simp [key1Of, List.filterMap_append, List.filterMap_cons, h]
  · have h : ORDER2 0x5BC = none := by decide
    simp [key2Of, List.filterMap_append, List.filterMap_cons, h]

/-- C10.  Structure of the two keys: key1 is exactly the subsequence of
key2 with entries below 100, every element of key1 is a consonant rank
below 100, and every vowel-only entry of the combined table is at least
100. -/
theorem C10_key_structure :
    ∀ w : List Nat,
      (sortkey w).1 = (sortkey w).2.filter (fun r => decide (r < 100)) ∧
      (∀ r ∈ (sortkey w).1, r < 100) ∧
      (∀ c v, CONS c = none → ORDER2 c = some v → 100 ≤ v) := by
  intro w
  refine ⟨key1Of_eq_filter_key2Of _, fun r hr => ?_, fun c v hc ho => ?_⟩
  · obtain ⟨c, -, hc⟩ := List.mem_filterMap.mp hr
    exact cons_rank_lt_100 hc
  · rw [order2_of_not_cons hc] at ho
    exact vowel_rank_ge_100 ho

/-- C10 witness: the theorem applied to the one-letter word Aleph, and
its membership hypothesis discharged at the rank 1 of Aleph. -/
theorem C10_witness :
    (sortkey [0x5D0]).1 =
      (sortkey [0x5D0]).2.filter (fun r => decide (r < 100)) ∧
    (1 : Nat) < 100 :=
  ⟨(C10_key_structure [0x5D0]).1,
   (C10_key_structure [0x5D0]).2.1 1 (by decide)⟩

theorem firstMatch_bounds : ∀ {p1 p2 : Nat} {v : List Nat} {j : Nat},
    firstMatch p1 p2 v = some j → j + 2 ≤ v.length
  | _, _, [], _, h => by simp [firstMatch] at h
  | _, _, [_], _, h => by simp [firstMatch] at h
  | p1, p2, a :: b :: t, j, h => by
    by_cases hc : a = p1 ∧ b = p2
    · rw [firstMatch, if_pos hc] at h
      obtain rfl : (0 : Nat) = j := Option.some.inj h
      simp
    · rw [firstMatch, if_neg hc] at h
      obtain ⟨j2, hj2, rfl⟩ := Option.map_eq_some'.mp h
      have := firstMatch_bounds hj2
      simp only [List.length_cons] at this ⊢
      omega

theorem findFrom_bounds {p1 p2 : Nat} {w : List Nat} {start i : Nat}
    (h : findFrom p1 p2 w start = some i) :
    start ≤ i ∧ i + 2 ≤ w.length := by
  obtain ⟨j, hj, rfl⟩ := Option.map_eq_some'.mp h
  have h2 := firstMatch_bounds hj
  rw [List.length_drop] at h2
  omega

theorem replaceFirst2_length : ∀ {p1 p2 r : Nat} (w : List Nat),
    (replaceFirst2 p1 p2 r w).length ≤ w.length
  | _, _, _, [] => by simp [replaceFirst2]
  | _, _, _, [a] => by simp [replaceFirst2]
  | p1, p2, r, a :: b :: t => by
    rw [replaceFirst2]
    split
    · simp
    · have := @replaceFirst2_length p1 p2 r (b :: t)
      simp only [List.length_cons] at this ⊢
      omega

theorem tvLoopF_isSome :
    ∀ (fuel p1 p2 r : Nat) (w : List Nat) (start : Nat),
      w.length - start ≤ fuel →
      (tvLoopF fuel p1 p2 r w start).isSome = true := by
  intro fuel
  induction fuel with
  | zero =>
    intro p1 p2 r w start hle
    cases hf : findFrom p1 p2 w start with
    | none => simp [tvLoopF, hf]
    | some i =>
      have := findFrom_bounds hf
      omega
  | succ f ih =>
    intro p1 p2 r w start hle
    cases hf : findFrom p1 p2 w start with
    | none => simp [tvLoopF, hf]
    | some i =>
      have hb := findFrom_bounds hf
      rw [tvLoopF, hf]
      apply ih
      have hW : (if !(strInVowDag (pySlice w ((i : Int) + 2) ((i : Int) + 1)) ||
            strInVowels (pySlice w ((i : Int) - 1) (i : Int)))
          then replaceFirst2 p1 p2 r w else w).length ≤ w.length := by
        split
        · exact replaceFirst2_length w
        · exact Nat.le_refl _
      omega

/-- C8.  The `while` loop of `trickyvav_replacer` always terminates:
fuel `length + 1` is enough for the fuelled model of the loop to reach
the exit condition (it never returns the out-of-fuel marker `none`), and
its result is exactly the value `trickyvav_replacer` computes. -/
theorem C8_tv_loop_total (p1 p2 r : Nat) (w : List Nat) :
    tvLoopF (w.length + 1) p1 p2 r w 0 =
      some (trickyvav_replacer w p1 p2 r) := by
  have h := tvLoopF_isSome (w.length + 1) p1 p2 r w 0 (by omega)
  obtain ⟨x, hx⟩ := Option.isSome_iff_exists.mp h
  rw [hx, trickyvav_replacer, hx]
  rfl

/-- C3 amended.  Vav + dagesh does NOT recompose unconditionally: the
replacement is subject to the same guard as the Holem patterns.  In a
word of the form c, Vav, dagesh, the pair becomes the Shureq U+FB35
exactly when the preceding character c is not a vowel; when c is a vowel
the Vav and dagesh are left as separate characters. -/
theorem C3_amended (c : Nat) :
    trickyvav_replacer [c, 0x5D5, 0x5BC] 0x5D5 0x5BC 0xFB35 =
      if isVowel c then [c, 0x5D5, 0x5BC] else [c, 0xFB35] := by
  by_cases h : isVowel c
  · simp [trickyvav_replacer, tvLoopF, findFrom, firstMatch, pySlice,
      pySliceLo, strInVowels, strInVowDag, replaceFirst2, h]
  · simp [trickyvav_replacer, tvLoopF, findFrom, firstMatch, pySlice,
      pySliceLo, strInVowels, strInVowDag, replaceFirst2, h]

theorem hebLetters_facts : ∀ c ∈ hebLetters,
    decomp c = [c] ∧ ccc c = 0 ∧ isRelevant c = true ∧
    isVowDag c = false ∧ c ≠ 0x5C2 ∧ c ≠ 0x5B9 ∧ c ≠ 0x5BC := by decide

theorem flatMap_decomp_id {w : List Nat} (h : ∀ c ∈ w, decomp c = [c]) :
    w.flatMap decomp = w := by
  induction w with
  | nil => rfl
  | cons c t ih =>
    rw [List.flatMap_cons, h c (List.mem_cons_self c t),
      ih (fun x hx => h x (List.mem_cons_of_mem c hx))]
    rfl

theorem insm_ccc_zero {c : Nat} (h : ccc c = 0) (t : List Nat) :
    insm c t = c :: t := by
  cases t with
  | nil => rfl
  | cons d ds =>
    rw [insm, if_neg]
    rw [h]
    omega

theorem canon_id {w : List Nat} (h : ∀ c ∈ w, ccc c = 0) : canon w = w := by
  induction w with
  | nil => rfl
  | cons c t ih =>
    have ht : canon t = t := ih (fun x hx => h x (List.mem_cons_of_mem c hx))
    show insm c (canon t) = c :: t
    rw [ht, insm_ccc_zero (h c (List.mem_cons_self c t))]

theorem msubF_id : ∀ (fuel : Nat) (w : List Nat),
    (∀ c ∈ w, isVowDag c = false ∧ c ≠ 0x5C2) → msubF fuel w = w := by
  intro fuel
  induction fuel with
  | zero =>
    intro w h
    cases w with
    | nil => rfl
    | cons c t => rfl
  | succ f ih =>
    intro w h
    cases w with
    | nil => rfl
    | cons c rest =>
      by_cases hc : c = 0x5E9
      · subst hc
        cases rest with
        | nil => simp [msubF]
        | cons m1 r1 =>
          have hm1 := h m1 (by simp)
          cases r1 with
          | nil =>
            rw [msubF]
            simp only [if_pos rfl, if_neg hm1.2]
            rw [ih [m1] (fun x hx => h x (by simpa using Or.inr hx))]
            simp
          | cons m2 r2 =>
            have hm2 := h m2 (by simp)
            cases r2 with
            | nil =>
              rw [msubF]
              simp only [if_pos rfl, hm1.1, Bool.false_and, Bool.false_eq_true,
                if_false, if_neg hm1.2]
              rw [ih [m1, m2] (fun x hx => by
                rcases List.mem_cons.mp hx with h1 | h1
                · exact h1 ▸ hm1
                · exact h x (by simpa using Or.inr (Or.inr h1)))]
              simp
            | cons d r =>
              rw [msubF]
              simp only [if_pos rfl, hm1.1, Bool.false_and, Bool.false_eq_true,
                if_false, if_neg hm1.2]
              rw [ih (m1 :: m2 :: d :: r) (fun x hx => h x (List.mem_cons_of_mem _ hx))]
              simp
      · rw [msubF.eq_def]
        simp only [if_neg hc]
        rw [ih rest (fun x hx => h x (List.mem_cons_of_mem c hx))]

theorem msub_id {w : List Nat}
    (h : ∀ c ∈ w, isVowDag c = false ∧ c ≠ 0x5C2) : msub w = w :=
  msubF_id w.length w h

theorem firstMatch_none_left : ∀ {p1 p2 : Nat} (w : List Nat),
    (∀ x ∈ w, x ≠ p1) → firstMatch p1 p2 w = none
  | _, _, [], _ => rfl
  | _, _, [_], _ => rfl
  | p1, p2, a :: b :: t, h => by
    rw [firstMatch, if_neg (fun hab => h a (by simp) hab.1),
      firstMatch_none_left (b :: t) (fun x hx => h x (List.mem_cons_of_mem a hx))]
    rfl

theorem firstMatch_none_right : ∀ {p1 p2 : Nat} (w : List Nat),
    (∀ x ∈ w, x ≠ p2) → firstMatch p1 p2 w = none
  | _, _, [], _ => rfl
  | _, _, [_], _ => rfl
  | p1, p2, a :: b :: t, h => by
    rw [firstMatch, if_neg (fun hab => h b (by simp) hab.2),
      firstMatch_none_right (b :: t) (fun x hx => h x (List.mem_cons_of_mem a hx))]
    rfl

theorem trickyvav_id {p1 p2 r : Nat} {w : List Nat}
    (h : firstMatch p1 p2 w = none) : trickyvav_replacer w p1 p2 r = w := by
  rw [trickyvav_replacer, tvLoopF]
  rw [findFrom, List.drop_zero, h]
  rfl

theorem substitutions_id {w : List Nat} (hw : ∀ c ∈ w, c ∈ hebLetters) :
    substitutions w = w := by
  have hf := fun c hc => hebLetters_facts c (hw c hc)
  have e1 : nfd w = w := by
    rw [nfd, flatMap_decomp_id (fun c hc => (hf c hc).1)]
    exact canon_id (fun c hc => (hf c hc).2.1)
  have e2 : w.filter isRelevant = w :=
    List.filter_eq_self.mpr (fun c hc => (hf c hc).2.2.1)
  have e3 : msub w = w :=
    msub_id (fun c hc => ⟨(hf c hc).2.2.2.1, (hf c hc).2.2.2.2.1⟩)
  rw [substitutions, e1, e2, e3,
    trickyvav_id (firstMatch_none_left w (fun x hx => (hf x hx).2.2.2.2.2.1)),
    trickyvav_id (firstMatch_none_right w (fun x hx => (hf x hx).2.2.2.2.2.1)),
    trickyvav_id (firstMatch_none_right w (fun x hx => (hf x hx).2.2.2.2.2.2))]

/-- C6 amended.  `substitutions` is not idempotent on arbitrary words
(see the counterexample), but it is idempotent on words made only of
letters, spaces and maqaf - on these it acts as the identity, so a
second pass changes nothing. -/
theorem C6_amended (w : List Nat) (hw : ∀ c ∈ w, c ∈ hebLetters) :
    substitutions (substitutions w) = substitutions w := by
  rw [substitutions_id hw]
  exact substitutions_id hw

/-- C6 witness: the amended idempotence applied to the concrete word
Aleph, Shin, Vav. -/
theorem C6_witness :
    (∀ c ∈ [0x5D0, 0x5E9, 0x5D5], c ∈ hebLetters) ∧
    substitutions (substitutions [0x5D0, 0x5E9, 0x5D5]) =
      substitutions [0x5D0, 0x5E9, 0x5D5] :=
  ⟨by decide, C6_amended _ (by decide)⟩

theorem lcmp_self : ∀ a : List Nat, lcmp a a = .eq
  | [] => rfl
  | x :: xs => by
    rw [lcmp, if_neg (Nat.lt_irrefl x), if_neg (Nat.lt_irrefl x)]
    exact lcmp_self xs

theorem lcmp_eq_of_eq : ∀ {a b : List Nat}, lcmp a b = .eq → a = b
  | [], [], _ => rfl
  | [], _ :: _, h => by simp [lcmp] at h
  | _ :: _, [], h => by simp [lcmp] at h
  | x :: xs, y :: ys, h => by
    rw [lcmp] at h
    split_ifs at h with h1 h2
    have hxy : x = y := by omega
    rw [hxy, lcmp_eq_of_eq h]

theorem lcmp_gt_iff_lt : ∀ (a b : List Nat), lcmp a b = .gt ↔ lcmp b a = .lt
  | [], [] => by simp [lcmp]
  | [], _ :: _ => by simp [lcmp]
  | _ :: _, [] => by simp [lcmp]
  | x :: xs, y :: ys => by
    rw [lcmp, lcmp]
    rcases Nat.lt_trichotomy x y with h | h | h
    · rw [if_pos h, if_neg (by omega), if_pos h]
      simp
    · rw [if_neg (by omega), if_neg (by omega), if_neg (by omega),
        if_neg (by omega)]
      exact lcmp_gt_iff_lt xs ys
    · rw [if_neg (by omega), if_pos h, if_pos h]
      simp

theorem lcmp_lt_trans : ∀ {a b c : List Nat},
    lcmp a b = .lt → lcmp b c = .lt → lcmp a c = .lt
  | [], [], _, h1, _ => by simp [lcmp] at h1
  | [], _ :: _, [], _, h2 => by simp [lcmp] at h2
  | [], _ :: _, _ :: _, _, _ => by simp [lcmp]
  | _ :: _, [], _, h1, _ => by simp [lcmp] at h1
  | _ :: _, _ :: _, [], _, h2 => by simp [lcmp] at h2
  | x :: xs, y :: ys, z :: zs, h1, h2 => by
    rw [lcmp] at h1 h2 ⊢
    split_ifs at h1 h2 ⊢ with g1 g2 g3 g4 g5 g6 <;> try rfl
    all_goals try omega
    exact lcmp_lt_trans h1 h2

theorem lcmp_le_trans {a b c : List Nat} (h1 : lcmp a b ≠ .gt)
    (h2 : lcmp b c ≠ .gt) : lcmp a c ≠ .gt := by
  cases h1c : lcmp a b with
  | gt => exact absurd h1c h1
  | eq => rw [← lcmp_eq_of_eq h1c] at h2; exact h2
  | lt =>
    cases h2c : lcmp b c with
    | gt => exact absurd h2c h2
    | eq => rw [← lcmp_eq_of_eq h2c]; simp [h1c]
    | lt => simp [lcmp_lt_trans h1c h2c]

theorem kcmp_self (x : List Nat × List Nat) : kcmp x x = .eq := by
  simp [kcmp, lcmp_self]

theorem kcmp_gt_iff (x y : List Nat × List Nat) :
    kcmp x y = .gt ↔ kcmp y x = .lt := by
  obtain ⟨x1, x2⟩ := x
  obtain ⟨y1, y2⟩ := y
  simp only [kcmp]
  cases h1 : lcmp x1 y1 with
  | eq =>
    rw [lcmp_eq_of_eq h1, lcmp_self]
    exact lcmp_gt_iff_lt x2 y2
  | lt =>
    have : lcmp y1 x1 = .gt := (lcmp_gt_iff_lt y1 x1).mpr h1
    rw [this]
    simp
  | gt =>
    have : lcmp y1 x1 = .lt := (lcmp_gt_iff_lt x1 y1).mp h1
    rw [this]
    simp

theorem kcmp_le_trans {x y z : List Nat × List Nat} (h1 : kcmp x y ≠ .gt)
    (h2 : kcmp y z ≠ .gt) : kcmp x z ≠ .gt := by
  obtain ⟨x1, x2⟩ := x
  obtain ⟨y1, y2⟩ := y
  obtain ⟨z1, z2⟩ := z
  simp only [kcmp] at h1 h2 ⊢
  cases h1c : lcmp x1 y1 with
  | gt => rw [h1c] at h1; exact absurd rfl h1
  | eq =>
    rw [h1c] at h1
    obtain rfl : x1 = y1 := lcmp_eq_of_eq h1c
    cases h2c : lcmp x1 z1 with
    | gt => rw [h2c] at h2; exact absurd rfl h2
    | lt => simp
    | eq =>
      rw [h2c] at h2
      exact lcmp_le_trans h1 h2
  | lt =>
    cases h2c : lcmp y1 z1 with
    | gt => rw [h2c] at h2; exact absurd rfl h2
    | eq =>
      obtain rfl : y1 = z1 := lcmp_eq_of_eq h2c
      simp [h1c]
    | lt => simp [lcmp_lt_trans h1c h2c]

theorem keyLE_iff (w1 w2 : List Nat) :
    keyLE w1 w2 = true ↔ kcmp (sortkey w1) (sortkey w2) ≠ .gt := by
  rw [keyLE]
  cases kcmp (sortkey w1) (sortkey w2) <;> simp

theorem keyLE_trans (a b c : List Nat) (h1 : keyLE a b = true)
    (h2 : keyLE b c = true) : keyLE a c = true :=
  (keyLE_iff a c).mpr
    (kcmp_le_trans ((keyLE_iff a b).mp h1) ((keyLE_iff b c).mp h2))

theorem keyLE_total (a b : List Nat) : (keyLE a b || keyLE b a) = true := by
  rw [keyLE, keyLE]
  cases h : kcmp (sortkey a) (sortkey b) with
  | lt => simp
  | eq => simp
  | gt =>
    rw [(kcmp_gt_iff _ _).mp h]
    simp

theorem keyLE_of_key_eq {a b : List Nat} (h : sortkey a = sortkey b) :
    keyLE a b = true := by
  rw [keyLE, h, kcmp_self]

theorem pairwise_keyLE_of_const {k : List Nat × List Nat} :
    ∀ {L : List (List Nat)}, (∀ x ∈ L, sortkey x = k) →
      L.Pairwise (fun a b => keyLE a b = true)
  | [], _ => List.Pairwise.nil
  | a :: t, h =>
    List.Pairwise.cons
      (fun b hb => keyLE_of_key_eq
        ((h a (List.mem_cons_self a t)).trans
          (h b (List.mem_cons_of_mem a hb)).symm))
      (pairwise_keyLE_of_const (fun x hx => h x (List.mem_cons_of_mem a hx)))

/-- C5.  `ivsort` returns a permutation of its input, sorted so that
consecutive elements are non-decreasing under the lexicographic
`(key1, key2)` order, and stably: for every key value, the words having
exactly that sort key appear in the output in their input order, hence
any two words with identical keys keep their relative order. -/
theorem C5_ivsort_correct (l : List (List Nat)) :
    (ivsort l).Perm l ∧
    (ivsort l).Pairwise (fun a b => keyLE a b = true) ∧
    ∀ k : List Nat × List Nat,
      (ivsort l).filter (fun w => decide (sortkey w = k)) =
        l.filter (fun w => decide (sortkey w = k)) := by
  refine ⟨List.mergeSort_perm l keyLE,
    List.sorted_mergeSort keyLE_trans keyLE_total l, fun k => ?_⟩
  have hall : ∀ x ∈ l.filter (fun w => decide (sortkey w = k)),
      sortkey x = k := fun x hx =>
    of_decide_eq_true (List.mem_filter.mp hx).2
  have hA : (l.filter (fun w => decide (sortkey w = k))).Pairwise
      (fun a b => keyLE a b = true) := pairwise_keyLE_of_const hall
  have h1 : List.Sublist (l.filter (fun w => decide (sortkey w = k)))
      (ivsort l) :=
    List.sublist_mergeSort keyLE_trans keyLE_total hA (List.filter_sublist l)
  have h2 := List.Sublist.filter (fun w => decide (sortkey w = k)) h1
  rw [List.filter_eq_self.mpr
    (fun x hx => (List.mem_filter.mp hx).2)] at h2
  have hperm : ((ivsort l).filter (fun w => decide (sortkey w = k))).Perm
      (l.filter (fun w => decide (sortkey w = k))) :=
    (List.mergeSort_perm l keyLE).filter _
  exact (h2.eq_of_length hperm.length_eq.symm).symm

theorem mem_insm {x c : Nat} : ∀ {t : List Nat}, x ∈ insm c t ↔ x = c ∨ x ∈ t
  | [] => by simp [insm]
  | d :: ds => by
    rw [insm]
    split
    · rw [List.mem_cons, mem_insm, List.mem_cons]
      tauto
    · simp

theorem insm_split (x cc : Nat) : ∀ (A B : List Nat),
    (∀ b ∈ B, 0 < ccc cc ∧ ccc cc < ccc b) →
    ∃ A2 B2, insm x (A ++ cc :: B) = A2 ++ cc :: B2 ∧
      insm x (A ++ B) = A2 ++ B2 ∧
      ∀ b ∈ B2, 0 < ccc cc ∧ ccc cc < ccc b
  | [], B, hB => by
    by_cases hq : 0 < ccc cc ∧ ccc cc < ccc x
    · refine ⟨[], insm x B, ?_, rfl, ?_⟩
      · rw [List.nil_append, insm, if_pos hq]
        rfl
      · intro b hb
        rcases mem_insm.mp hb with rfl | hb2
        · exact hq
        · exact hB b hb2
    · have hB2 : insm x B = x :: B := by
        cases B with
        | nil => rfl
        | cons b bs =>
          have hb := hB b (List.mem_cons_self b bs)
          rw [insm, if_neg]
          omega
      refine ⟨[x], B, ?_, ?_, hB⟩
      · rw [List.nil_append, insm, if_neg hq]
        rfl
      · rw [List.nil_append, hB2]
        rfl
  | a :: A1, B, hB => by
    by_cases ha : 0 < ccc a ∧ ccc a < ccc x
    · obtain ⟨A2, B2, e1, e2, hB2⟩ := insm_split x cc A1 B hB
      refine ⟨a :: A2, B2, ?_, ?_, hB2⟩
      · rw [List.cons_append, insm, if_pos ha, e1]
        rfl
      · rw [List.cons_append, insm, if_pos ha, e2]
        rfl
    · refine ⟨x :: a :: A1, B, ?_, ?_, hB⟩
      · rw [List.cons_append, insm, if_neg ha]
        rfl
      · rw [List.cons_append, insm, if_neg ha]
        rfl

theorem canon_snoc_split (cc : Nat) : ∀ s : List Nat,
    ∃ A2 B2, canon (s ++ [cc]) = A2 ++ cc :: B2 ∧ canon s = A2 ++ B2 ∧
      ∀ b ∈ B2, 0 < ccc cc ∧ ccc cc < ccc b
  | [] => ⟨[], [], rfl, rfl, by simp⟩
  | x :: s1 => by
    obtain ⟨A2, B2, e1, e2, hB2⟩ := canon_snoc_split cc s1
    obtain ⟨A3, B3, f1, f2, hB3⟩ := insm_split x cc A2 B2 hB2
    refine ⟨A3, B3, ?_, ?_, hB3⟩
    · show insm x (canon (s1 ++ [cc])) = A3 ++ cc :: B3
      rw [e1, f1]
    · show insm x (canon s1) = A3 ++ B3
      rw [e2, f2]

theorem filter_canon_snoc {cc : Nat} (hcc : isRelevant cc = false)
    (s : List Nat) :
    (canon (s ++ [cc])).filter isRelevant = (canon s).filter isRelevant := by
  obtain ⟨A2, B2, e1, e2, -⟩ := canon_snoc_split cc s
  rw [e1, e2, List.filter_append, List.filter_append, List.filter_cons, hcc]
  simp

theorem substitutions_snoc_irrelevant {w : List Nat} {c : Nat}
    (h1 : isRelevant c = false) (h2 : decomp c = [c]) :
    substitutions (w ++ [c]) = substitutions w := by
  have hf : (nfd (w ++ [c])).filter isRelevant =
      (nfd w).filter isRelevant := by
    rw [nfd, nfd, List.flatMap_append]
    have : [c].flatMap decomp = [c] := by simp [h2]
    rw [this]
    exact filter_canon_snoc h1 _
  rw [substitutions, substitutions, hf]

/-- C7 amended.  Appending a character that is outside the
relevant-character set AND has no canonical decomposition - which covers
every cantillation mark and punctuation character - never changes the
sort key.  (The unamended claim fails for decomposable irrelevant
characters such as U+FB2A, see the counterexample.) -/
theorem C7_amended (w : List Nat) (c : Nat) (h1 : isRelevant c = false)
    (h2 : decomp c = [c]) : sortkey (w ++ [c]) = sortkey w := by
  rw [sortkey, sortkey, substitutions_snoc_irrelevant h1 h2]

/-- C7 witness: appending the cantillation mark Etnahta U+0591 to the
word Aleph leaves the sort key unchanged. -/
theorem C7_witness : sortkey ([0x5D0] ++ [0x591]) = sortkey [0x5D0] :=
  C7_amended [0x5D0] 0x591 (by decide) (by decide)

/-- C1.  The claim says `substitutions` rewrites Shin + marks + Sin-dot to
the Sin letter followed by exactly the same intervening marks.  In fact
the replacement string `u'שׂ\1'` of line 76 contains the octal escape
`\1` = U+0001, not a regex backreference, so on the word
Shin + Patah + Sin-dot the code emits U+FB2B followed by the control
character U+0001: the Patah is deleted, contradicting the claim that no
intervening vowel mark is lost. -/
theorem C1_sin_marks_dropped :
    substitutions [0x5E9, 0x5B7, 0x5C2] = [0xFB2B, 0x1] := by decide

/-- C2.  The claim says the Holem is NOT absorbed into Holem-Vav when the
character immediately following the combined pair is a vowel or dagesh.
The code's lookahead `word[i+2:i+1]` (line 90) is an always-empty slice,
so this exception never fires: on Vav + Holem + Dagesh the pair IS
recomposed to U+FB4B even though the following character is a dagesh. -/
theorem C2_lookahead_dead :
    substitutions [0x5D5, 0x5B9, 0x5BC] = [0xFB4B, 0x5BC] := by decide

/-- C3 counterexample.  The claim says Vav + dagesh recomposes to Shureq
unconditionally.  With a Patah before the pair, the preceding-character
guard of `trickyvav_replacer` (which applies to the dagesh pattern just
like to the Holem patterns) suppresses the replacement, so the output
still has the separate Vav and dagesh, not the Shureq U+FB35. -/
theorem C3_counterexample :
    substitutions [0x5B7, 0x5D5, 0x5BC] = [0x5B7, 0x5D5, 0x5BC] ∧
    substitutions [0x5B7, 0x5D5, 0x5BC] ≠ [0x5B7, 0xFB35] := by decide

/-- C4 counterexample.  The claim says the combined table gives the
dagesh U+05BC a vowel-tier rank and that a surviving dagesh contributes
a rank to key2.  In fact `VOWELORDER` does not contain U+05BC, so
`ORDER2` has no entry for it; in Bet + dagesh the dagesh survives
normalization yet key2 is just `[2]` - the dagesh contributed nothing. -/
theorem C4_counterexample :
    ORDER2 0x5BC = none ∧
    substitutions [0x5D1, 0x5BC] = [0x5D1, 0x5BC] ∧
    sortkey [0x5D1, 0x5BC] = ([2], [2]) := by decide

/-- C6 counterexample.  `substitutions` is not idempotent: on
Holem + Vav + Hiriq the first pass recomposes to `[U+FB4B, U+05B4]`, but
a second pass NFD-decomposes U+FB4B back to Vav + Holem and canonical
ordering then moves the Hiriq (combining class 14) before the Holem
(class 19), after which no pattern is adjacent any more, giving the
different word `[U+05D5, U+05B4, U+05B9]`. -/
theorem C6_counterexample :
    substitutions (substitutions [0x5B9, 0x5D5, 0x5B4]) ≠
      substitutions [0x5B9, 0x5D5, 0x5B4] := by decide

/-- C7 counterexample.  The claim quantifies over every character outside
the relevant-character set.  U+FB2A (Shin with Shin-dot) is outside that
set, yet appending it changes the sort key, because NFD decomposes it
into the relevant characters Shin + Shin-dot before filtering. -/
theorem C7_counterexample :
    isRelevant 0xFB2A = false ∧
    sortkey [0x5D0, 0xFB2A] ≠ sortkey [0x5D0] := by decide

/-- C9.  The word Shin + Sin-dot gets key `([26], [26])` - the Sin-dot
triggers the substitution to the precomposed Sin letter U+FB2B, whose
consonant rank 26 is adjacent to Shin's rank 27 - while Shin + Shin-dot
gets key `([27], [27])` because the Shin-dot carries no rank; the two
keys are unequal, so the two words sort apart. -/
theorem C9_sin_shin_distinct :
    sortkey [0x5E9, 0x5C2] = ([26], [26]) ∧
    sortkey [0x5E9, 0x5C1] = ([27], [27]) ∧
    sortkey [0x5E9, 0x5C2] ≠ sortkey [0x5E9, 0x5C1] ∧
    CONS 0xFB2B = some 26 ∧ CONS 0x5E9 = some 27 := by decide

end Ivsort
